import Mathlib

/-!
Verification of the p4-stack core: stack-graph construction
(`graph_utils.py`), the three-way merge engine and snapshot I/O
(`core/rebase.py`), the update command flow (`commands/update.py`) and the
operation-log persistence (`state.py`).

Python strings are modelled as `List Char`; Python `dict`s are modelled as
association lists with the same insert-or-replace-in-place semantics, so
key order matches CPython insertion order.  External effects (the `diff3`
binary, the Perforce server, the filesystem) enter as explicit parameters
or oracles; everything that is pure Python is translated directly.
-/

namespace P4Stack

/-- The exact set of code points Python treats as whitespace: the regex
class `\s` (str pattern, default Unicode mode) and `str.isspace()` (which
`str.strip()` uses) match precisely these code points and coincide
(CPython 3.11, Unicode 14.0). -/
def pyIsSpace (c : Char) : Bool :=
  (Nat.ble 9 c.toNat && Nat.ble c.toNat 13) ||
  (Nat.ble 28 c.toNat && Nat.ble c.toNat 32) ||
  (Nat.ble 133 c.toNat && Nat.ble c.toNat 133) ||
  (Nat.ble 160 c.toNat && Nat.ble c.toNat 160) ||
  (Nat.ble 5760 c.toNat && Nat.ble c.toNat 5760) ||
  (Nat.ble 8192 c.toNat && Nat.ble c.toNat 8202) ||
  (Nat.ble 8232 c.toNat && Nat.ble c.toNat 8233) ||
  (Nat.ble 8239 c.toNat && Nat.ble c.toNat 8239) ||
  (Nat.ble 8287 c.toNat && Nat.ble c.toNat 8287) ||
  (Nat.ble 12288 c.toNat && Nat.ble c.toNat 12288)

/-- The exact set of code points the regex class `\d` matches for a str
pattern (Unicode decimal digits, category Nd; CPython 3.11, Unicode
14.0). -/
def pyIsDigit (c : Char) : Bool :=
  (Nat.ble 48 c.toNat && Nat.ble c.toNat 57) ||
  (Nat.ble 1632 c.toNat && Nat.ble c.toNat 1641) ||
  (Nat.ble 1776 c.toNat && Nat.ble c.toNat 1785) ||
  (Nat.ble 1984 c.toNat && Nat.ble c.toNat 1993) ||
  (Nat.ble 2406 c.toNat && Nat.ble c.toNat 2415) ||
  (Nat.ble 2534 c.toNat && Nat.ble c.toNat 2543) ||
  (Nat.ble 2662 c.toNat && Nat.ble c.toNat 2671) ||
  (Nat.ble 2790 c.toNat && Nat.ble c.toNat 2799) ||
  (Nat.ble 2918 c.toNat && Nat.ble c.toNat 2927) ||
  (Nat.ble 3046 c.toNat && Nat.ble c.toNat 3055) ||
  (Nat.ble 3174 c.toNat && Nat.ble c.toNat 3183) ||
  (Nat.ble 3302 c.toNat && Nat.ble c.toNat 3311) ||
  (Nat.ble 3430 c.toNat && Nat.ble c.toNat 3439) ||
  (Nat.ble 3558 c.toNat && Nat.ble c.toNat 3567) ||
  (Nat.ble 3664 c.toNat && Nat.ble c.toNat 3673) ||
  (Nat.ble 3792 c.toNat && Nat.ble c.toNat 3801) ||
  (Nat.ble 3872 c.toNat && Nat.ble c.toNat 3881) ||
  (Nat.ble 4160 c.toNat && Nat.ble c.toNat 4169) ||
  (Nat.ble 4240 c.toNat && Nat.ble c.toNat 4249) ||
  (Nat.ble 6112 c.toNat && Nat.ble c.toNat 6121) ||
  (Nat.ble 6160 c.toNat && Nat.ble c.toNat 6169) ||
  (Nat.ble 6470 c.toNat && Nat.ble c.toNat 6479) ||
  (Nat.ble 6608 c.toNat && Nat.ble c.toNat 6617) ||
  (Nat.ble 6784 c.toNat && Nat.ble c.toNat 6793) ||
  (Nat.ble 6800 c.toNat && Nat.ble c.toNat 6809) ||
  (Nat.ble 6992 c.toNat && Nat.ble c.toNat 7001) ||
  (Nat.ble 7088 c.toNat && Nat.ble c.toNat 7097) ||
  (Nat.ble 7232 c.toNat && Nat.ble c.toNat 7241) ||
  (Nat.ble 7248 c.toNat && Nat.ble c.toNat 7257) ||
  (Nat.ble 42528 c.toNat && Nat.ble c.toNat 42537) ||
  (Nat.ble 43216 c.toNat && Nat.ble c.toNat 43225) ||
  (Nat.ble 43264 c.toNat && Nat.ble c.toNat 43273) ||
  (Nat.ble 43472 c.toNat && Nat.ble c.toNat 43481) ||
  (Nat.ble 43504 c.toNat && Nat.ble c.toNat 43513) ||
  (Nat.ble 43600 c.toNat && Nat.ble c.toNat 43609) ||
  (Nat.ble 44016 c.toNat && Nat.ble c.toNat 44025) ||
  (Nat.ble 65296 c.toNat && Nat.ble c.toNat 65305) ||
  (Nat.ble 66720 c.toNat && Nat.ble c.toNat 66729) ||
  (Nat.ble 68912 c.toNat && Nat.ble c.toNat 68921) ||
  (Nat.ble 69734 c.toNat && Nat.ble c.toNat 69743) ||
  (Nat.ble 69872 c.toNat && Nat.ble c.toNat 69881) ||
  (Nat.ble 69942 c.toNat && Nat.ble c.toNat 69951) ||
  (Nat.ble 70096 c.toNat && Nat.ble c.toNat 70105) ||
  (Nat.ble 70384 c.toNat && Nat.ble c.toNat 70393) ||
  (Nat.ble 70736 c.toNat && Nat.ble c.toNat 70745) ||
  (Nat.ble 70864 c.toNat && Nat.ble c.toNat 70873) ||
  (Nat.ble 71248 c.toNat && Nat.ble c.toNat 71257) ||
  (Nat.ble 71360 c.toNat && Nat.ble c.toNat 71369) ||
  (Nat.ble 71472 c.toNat && Nat.ble c.toNat 71481) ||
  (Nat.ble 71904 c.toNat && Nat.ble c.toNat 71913) ||
  (Nat.ble 72016 c.toNat && Nat.ble c.toNat 72025) ||
  (Nat.ble 72784 c.toNat && Nat.ble c.toNat 72793) ||
  (Nat.ble 73040 c.toNat && Nat.ble c.toNat 73049) ||
  (Nat.ble 73120 c.toNat && Nat.ble c.toNat 73129) ||
  (Nat.ble 92768 c.toNat && Nat.ble c.toNat 92777) ||
  (Nat.ble 92864 c.toNat && Nat.ble c.toNat 92873) ||
  (Nat.ble 93008 c.toNat && Nat.ble c.toNat 93017) ||
  (Nat.ble 120782 c.toNat && Nat.ble c.toNat 120831) ||
  (Nat.ble 123200 c.toNat && Nat.ble c.toNat 123209) ||
  (Nat.ble 123632 c.toNat && Nat.ble c.toNat 123641) ||
  (Nat.ble 125264 c.toNat && Nat.ble c.toNat 125273) ||
  (Nat.ble 130032 c.toNat && Nat.ble c.toNat 130041)

/-- `List Char` view of a string literal. -/
def sChars (s : String) : List Char := s.data

/-- Python dict lookup `d.get(k)` on an association list. -/
def dictGet (k : List Char) : List (List Char × α) → Option α
  | [] => none
  | (k', v) :: rest => if k' = k then some v else dictGet k rest

/-- Python dict assignment `d[k] = v`: replace in place, else append. -/
def dictPut (k : List Char) (v : α) : List (List Char × α) → List (List Char × α)
  | [] => [(k, v)]
  | (k', v') :: rest => if k' = k then (k, v) :: rest else (k', v') :: dictPut k v rest

/-- The keys of an association list, in order. -/
def keysOf (l : List (List Char × α)) : List (List Char) := l.map Prod.fst

/-- Whether `k` is a key (`k in d`). -/
def hasKey (k : List Char) (l : List (List Char × α)) : Bool := (dictGet k l).isSome

/-- `Snapshot` from `core/types.py`: basename → file content. -/
abbrev Snapshot := List (List Char × List Char)

/-- `FileToDepot` from `core/types.py`: basename → depot path. -/
abbrev FileToDepot := List (List Char × List Char)

/-- `MergeResult` from `core/types.py`: (merged content, has_conflict). -/
abbrev MergeResult := List Char × Bool

/-! ## Snapshot read — `get_cl_snapshot` (`core/rebase.py` lines 23–50)

The `p4 print` answer is modelled after pairing: a list of
(raw depot path from the metadata record, content) pairs, exactly the
pairs the source forms from the alternating flat list. -/

/-- Python `depot_file.strip("'\"")`: drop the quote characters from both
ends. -/
def stripQuotes (l : List Char) : List Char :=
  let isQ : Char → Bool := fun c => c = '\'' || c = '"'
  ((l.dropWhile isQ).reverse.dropWhile isQ).reverse

/-- `pathlib.Path(p).name` for a depot path: the part after the last
slash. -/
def pathBasename (l : List Char) : List Char :=
  (l.reverse.takeWhile (fun c => c ≠ '/')).reverse

/-- The pure content of `get_cl_snapshot`'s loop: for each (metadata,
content) pair, strip quotes off the depot path, take the basename, and
store content and depot path under that basename (dict overwrite on
collision). -/
def get_cl_snapshot (printed : List (List Char × List Char)) :
    Snapshot × FileToDepot :=
  printed.foldl
    (fun (acc : Snapshot × FileToDepot) pr =>
      let depot := stripQuotes pr.1
      let filename := pathBasename depot
      (dictPut filename pr.2 acc.1, dictPut filename depot acc.2))
    ([], [])

/-! ## Three-way folder merge — `three_way_merge_folder`
(`core/rebase.py` lines 124–176)

`_three_way_merge_file` shells out to `diff3`; it is the parameter `mrg`
below.  The folder merge's case chain (source lines 142–174) is
`folder_merge_case`. -/

/-- The `if` chain of `three_way_merge_folder`'s loop body, in source
order: `none` means the file is omitted from the merged snapshot
(`continue`), `some r` means it is assigned result `r`. -/
def folder_merge_case (mrg : Option (List Char) → Option (List Char) →
    Option (List Char) → MergeResult)
    (b o t : Option (List Char)) : Option MergeResult :=
  match b, o, t with
  | none, some oc, none => some (oc, false)        -- case 1: added only in ours
  | none, none, some tc => some (tc, false)        -- case 2: added only in theirs
  | some bc, none, some tc =>                      -- case 3 guard, else fall through
      if tc = bc then none else some (mrg (some bc) none (some tc))
  | some bc, some oc, none =>                      -- case 4 guard, else fall through
      if oc = bc then none else some (mrg (some bc) (some oc) none)
  | some _, none, none => none                     -- case 5: deleted in both
  | b, o, t => some (mrg b o t)                    -- fall through to file merge

/-- The union of the three key sets (`all_files` in the source; a Python
set, so only membership matters — deduplicated here). -/
def allFiles (base ours theirs : Snapshot) : List (List Char) :=
  (keysOf base ++ keysOf ours ++ keysOf theirs).dedup

/-- `three_way_merge_folder`: apply the case chain to every basename in
the key union. -/
def three_way_merge_folder
    (mrg : Option (List Char) → Option (List Char) → Option (List Char) → MergeResult)
    (base_folder ours_folder theirs_folder : Snapshot) :
    List (List Char × MergeResult) :=
  (allFiles base_folder ours_folder theirs_folder).filterMap
    (fun f =>
      (folder_merge_case mrg (dictGet f base_folder) (dictGet f ours_folder)
        (dictGet f theirs_folder)).map (fun r => (f, r)))

/-- Drop the conflict flags: the snapshot an engine would hand to
`commit_snapshot_to_cl` after a merge (spec §4.5: "write the clean merged
snapshot back to the child"). -/
def mergedContents (m : List (List Char × MergeResult)) : Snapshot :=
  m.map (fun fr => (fr.1, fr.2.1))

/-! ## Snapshot write — `commit_snapshot_to_cl`
(`core/rebase.py` lines 179–264)

The effectful function is modelled by the plan it computes: the three
change sets (source lines 194–204) and which shelve command the commit
step issues (source lines 252–258). -/

/-- `files_to_edit`: keys in both snapshots whose content differs. -/
def files_to_edit (new_snapshot original_snapshot : Snapshot) : List (List Char) :=
  ((keysOf original_snapshot).dedup).filter
    (fun f => hasKey f new_snapshot ∧ dictGet f original_snapshot ≠ dictGet f new_snapshot)

/-- `files_to_add`: keys only in the new snapshot. -/
def files_to_add (new_snapshot original_snapshot : Snapshot) : List (List Char) :=
  ((keysOf new_snapshot).dedup).filter (fun f => ¬ hasKey f original_snapshot)

/-- `files_to_delete`: keys only in the original snapshot. -/
def files_to_delete (new_snapshot original_snapshot : Snapshot) : List (List Char) :=
  ((keysOf original_snapshot).dedup).filter (fun f => ¬ hasKey f new_snapshot)

/-- Which shelve command the end of `commit_snapshot_to_cl` issues. -/
inductive ShelfAction where
  | forceShelve   -- `p4_conn.shelve(cl_num, force=True)`
  | deleteShelve  -- `p4_conn.shelve(cl_num, delete=True)`
  | noShelve      -- neither branch taken
  deriving DecidableEq, Repr

/-- Source lines 252–258: force-shelve when anything was written or
deleted; otherwise delete the shelf when the CL went from non-empty to
empty; otherwise do nothing. -/
def commit_shelf_action (new_snapshot original_snapshot : Snapshot) : ShelfAction :=
  if files_to_edit new_snapshot original_snapshot ++
      files_to_add new_snapshot original_snapshot ≠ [] ∨
      files_to_delete new_snapshot original_snapshot ≠ [] then
    .forceShelve
  else if (keysOf new_snapshot).dedup = [] ∧ (keysOf original_snapshot).dedup ≠ [] then
    .deleteShelve
  else
    .noShelve

/-! ## Operation log — `state.py`

`save_state` (lines 22–28) wraps the file write in
`try: ... except IOError: print(...)`.  The filesystem outcome is the
oracle; the model records what the function raises, prints, and whether
the log on disk now reflects the in-memory state. -/

/-- Outcome of the attempted `open(STATE_FILE, 'w')` + `json.dump`. -/
inductive WriteOutcome where
  | written
  | ioError (msg : List Char)
  deriving DecidableEq

/-- Result of `save_state`: what it raises (always nothing), what it
prints, and whether the state file was written. -/
structure SaveStateResult where
  raised : Option (List Char)
  printed : List (List Char)
  fileWritten : Bool
  deriving DecidableEq

/-- `save_state` (`state.py` lines 22–28): an `IOError` from the write is
caught and printed; the function returns normally either way. -/
def save_state (w : WriteOutcome) : SaveStateResult :=
  match w with
  | .written => ⟨none, [], true⟩
  | .ioError msg =>
      ⟨none, [sChars "Error: Could not write state file " ++ msg], false⟩

/-! ## The `Depends-On` tag regex — `graph_utils.py`

`DEPENDS_ON_RE = re.compile(r'Depends-On:\s*(\d+)', re.IGNORECASE)`.

Because `\s` and `\d` are disjoint, the greedy backtracking match of
`\s*(\d+)` succeeds exactly when the first character after the maximal
whitespace run is a digit, and then captures the maximal digit run; this
is what `matchTag` computes. -/

/-- Case-insensitive literal match: `pat` is given lowercased; on success
returns the rest of the input. -/
def matchCI : List Char → List Char → Option (List Char)
  | [], l => some l
  | _ :: _, [] => none
  | p :: ps, c :: cs => if c.toLower = p then matchCI ps cs else none

/-- The literal of the regex, lowercased. -/
def litDependsOn : List Char := sChars "depends-on:"

/-- The `\s*(\d+)` part after the literal: skip the whitespace run; the
next character must be a digit; capture the digit run. -/
def tagNum (r : List Char) : Option (List Char × List Char) :=
  match r.dropWhile pyIsSpace with
  | [] => none
  | c :: r2 =>
      if pyIsDigit c then
        some ((c :: r2).takeWhile pyIsDigit, (c :: r2).dropWhile pyIsDigit)
      else none

/-- Try to match `Depends-On:\s*(\d+)` at the head of `l`; on success
return (captured digit group, rest of the input after the match). -/
def matchTag (l : List Char) : Option (List Char × List Char) :=
  match matchCI litDependsOn l with
  | none => none
  | some r => tagNum r

/-- `parse_depends_on` (`graph_utils.py` lines 28–36): the capture group
of the first match, scanning left to right (`re.search`). -/
def parse_depends_on : List Char → Option (List Char)
  | [] => none
  | c :: rest =>
      match matchTag (c :: rest) with
      | some (digits, _) => some digits
      | none => parse_depends_on rest

structure RawChange where
  change : Option (List Char)
  desc : List Char

/-- First pass (source lines 45–58): `changes_map`, keyed by CL number,
holding the description and the parsed `Depends-On` tag. -/
def changes_map (raw : List RawChange) :
    List (List Char × (List Char × Option (List Char))) :=
  raw.foldl
    (fun m rc =>
      match rc.change with
      | none => m
      | some cl =>
          if cl = [] then m else dictPut cl (rc.desc, parse_depends_on rc.desc) m)
    []

/-- The link test of the second pass:
`if parent_cl_num and parent_cl_num in changes_map`. -/
def linkGuard (m : List (List Char × (List Char × Option (List Char))))
    (pOpt : Option (List Char)) : Option (List Char) :=
  match pOpt with
  | some p => if p ≠ [] ∧ hasKey p m then some p else none
  | none => none

structure StackGraph where
  map : List (List Char × (List Char × Option (List Char)))
  edges : List (List Char × List Char)
  rootsRaw : List (List Char)

/-- `build_stack_graph`: first pass, then the second pass recorded as its
(parent, child) append events and raw roots (the `filterMap`s traverse
`changes_map` in the same order the Python loop does, appending one event
per node). -/
def build_stack_graph (raw : List RawChange) : StackGraph :=
  { map := changes_map raw
    edges := (changes_map raw).filterMap
      (fun e => (linkGuard (changes_map raw) e.2.2).map (fun p => (p, e.1)))
    rootsRaw := (changes_map raw).filterMap
      (fun e => if (linkGuard (changes_map raw) e.2.2).isSome then none
                else some e.1) }

/-- Python `int` on a CL number string (digit strings only in practice). -/
def strToNat (l : List Char) : Nat :=
  l.foldl (fun a c => 10 * a + (c.toNat - 48)) 0

/-- `sort(key=lambda c: int(c.cl_num))`: a stable sort ascending by the
numeric value (insertion sort — stable and ascending like Python's
`list.sort`, and kernel-computable). -/
def sortByNum (l : List (List Char)) : List (List Char) :=
  l.insertionSort (fun a b => strToNat a ≤ strToNat b)

/-- The `children` list of node `p` in the returned forest: the appended
children, sorted ascending by CL number (source lines 72–74). -/
def childrenOf (g : StackGraph) (p : List Char) : List (List Char) :=
  sortByNum ((g.edges.filter (fun e => e.1 = p)).map Prod.snd)

/-- The returned `root_nodes`, sorted ascending (source line 75). -/
def rootsOf (g : StackGraph) : List (List Char) := sortByNum g.rootsRaw

/-- The effective parent link: the stored tag when the link test passed. -/
def effParent (g : StackGraph) (c : List Char) : Option (List Char) :=
  match dictGet c g.map with
  | some dp => linkGuard g.map dp.2
  | none => none

/-- Two pending CLs whose `Depends-On` tags reference each other: the
cycle input of the graph-construction analysis. -/
def exampleCycleRaw : List RawChange :=
  [⟨some (sChars "1"), sChars "Depends-On: 2"⟩,
   ⟨some (sChars "2"), sChars "Depends-On: 1"⟩]

/-- A small well-formed stack: 100 with children 101 and 102. -/
def exampleLinRaw : List RawChange :=
  [⟨some (sChars "100"), sChars "Root"⟩,
   ⟨some (sChars "102"), sChars "C2\n\nDepends-On: 100"⟩,
   ⟨some (sChars "101"), sChars "C1\n\nDepends-On: 100"⟩]

/-- Iterated parent lookup: the chain a node's rebase ancestry follows. -/
def parentIter (g : StackGraph) : Nat → List Char → Option (List Char)
  | 0, n => some n
  | k + 1, n =>
      match effParent g n with
      | some p => parentIter g k p
      | none => none

/-- The child-of edge relation of the forest: `b` is a child of `a`. -/
def chStep (children : List Char → List (List Char)) (a b : List Char) : Prop :=
  b ∈ children a

/-- `x` occurs strictly before `y` in the list `L`. -/
def Precedes (L : List α) (x y : α) : Prop :=
  ∃ l₁ l₂, L = l₁ ++ l₂ ∧ x ∈ l₁ ∧ y ∈ l₂

/-- The breadth-first queue invariant: no duplicates, no queue member is
a strict descendant of another, parents of queue members are not
reachable from the queue, and siblings in the queue keep their
children-list order. -/
def QInv (children : List Char → List (List Char)) (Q : List (List Char)) : Prop :=
  Q.Nodup ∧
  (∀ m ∈ Q, ∀ c ∈ Q, ¬ Relation.TransGen (chStep children) m c) ∧
  (∀ m ∈ Q, ∀ p, m ∈ children p → ∀ x ∈ Q,
    ¬ Relation.ReflTransGen (chStep children) x p) ∧
  (∀ p c d, Precedes (children p) c d → c ∈ Q → d ∈ Q → Precedes Q c d)

/-! ## Traversal — `commands/update.py` -/

/-- The loop of `_get_stack_from_node` (`update.py` lines 30–39):
breadth-first, popping the queue front, appending each node's children in
sorted order.  The `while` loop is fuel-structured; every iteration pops
one node, and safety properties are proved for every fuel. -/
def bfsAux (children : List Char → List (List Char)) :
    Nat → List (List Char) → List (List Char)
  | 0, _ => []
  | _ + 1, [] => []
  | fuel + 1, n :: queue => n :: bfsAux children fuel (queue ++ children n)

/-- `_get_stack_from_node` applied to the node `base` of graph `g`
(`sorted(node.children, ...)` re-sorts an already sorted list, which is
the identity, so `childrenOf` is the children map it reads). -/
def get_stack_from_node (g : StackGraph) (base : List Char) (fuel : Nat) :
    List (List Char) :=
  bfsAux (childrenOf g) fuel [base]

/-! ## The update command — `_handle_new_update` and `_run_update_loop`
(`update.py` lines 156–275)

Perforce mutations are recorded as a trace of actions; whether
`p4.resolve_auto_merge()` raises a conflict for a given CL is an
oracle. -/

inductive P4Action where
  | revertAll
  | unshelve (src dst : List Char)
  | launchEditor (cl : List Char)
  | resolveAutoMerge
  | forceShelve (cl : List Char)
  deriving DecidableEq

inductive UpdateErr where
  | logExists
  | clNotInStack
  | internalNoNode (cl : List Char)
  | internalNoParent (cl : List Char)
  | conflict (cl : List Char)
  deriving DecidableEq

/-- The `UpdateState` dataclass (`state.py` lines 10–20). -/
structure UpdateState where
  base_cl : List Char
  stack_to_update : List (List Char)
  rebased_cls : List (List Char)
  conflict_cl : Option (List Char)

structure UpdateOutcome where
  actions : List P4Action
  result : Except UpdateErr UpdateState

/-- The `for` body chain of `_run_update_loop` (source lines 232–272)
over the already-filtered work list. -/
def loopSteps (g : StackGraph) (conflicts : List Char → Bool)
    (state : UpdateState) : List (List Char) → UpdateOutcome
  | [] => ⟨[], .ok state⟩
  | cl :: rest =>
      match dictGet cl g.map with
      | none => ⟨[], .error (.internalNoNode cl)⟩
      | some node =>
          if cl = state.base_cl then
            let out := loopSteps g conflicts
              { state with rebased_cls := state.rebased_cls ++ [cl] } rest
            ⟨[.revertAll, .unshelve cl cl, .launchEditor cl, .forceShelve cl] ++
              out.actions, out.result⟩
          else
            match node.2 with
            | none => ⟨[.revertAll], .error (.internalNoParent cl)⟩
            | some parent =>
                if parent = [] then ⟨[.revertAll], .error (.internalNoParent cl)⟩
                else if conflicts cl then
                  ⟨[.revertAll, .unshelve cl cl, .unshelve parent cl,
                    .resolveAutoMerge], .error (.conflict cl)⟩
                else
                  let out := loopSteps g conflicts
                    { state with rebased_cls := state.rebased_cls ++ [cl] } rest
                  ⟨[.revertAll, .unshelve cl cl, .unshelve parent cl,
                    .resolveAutoMerge, .forceShelve cl] ++ out.actions, out.result⟩

/-- `_run_update_loop`: filter out already-rebased CLs, then run the
loop. -/
def run_update_loop (g : StackGraph) (conflicts : List Char → Bool)
    (state : UpdateState) : UpdateOutcome :=
  loopSteps g conflicts state
    (state.stack_to_update.filter (fun cl => cl ∉ state.rebased_cls))

/-- The node set `_find_node_in_graph` searches: everything reachable
from the roots (the source walks it with an explicit stack; only
membership is consumed). -/
def reachableNodes (g : StackGraph) (fuel : Nat) : List (List Char) :=
  bfsAux (childrenOf g) fuel (rootsOf g)

/-- `_handle_new_update` (source lines 156–189): refuse when the state
file exists, else build the graph, locate the base, persist a fresh
state, and run the loop.  The state-file existence check comes first; no
Perforce action is emitted before it. -/
def handle_new_update (logExists : Bool) (raw : List RawChange)
    (cl_num : List Char) (conflicts : List Char → Bool) (fuel : Nat) :
    UpdateOutcome :=
  if logExists then ⟨[], .error .logExists⟩
  else
    let g := build_stack_graph raw
    if cl_num ∈ reachableNodes g fuel then
      run_update_loop g conflicts
        ⟨cl_num, get_stack_from_node g cl_num fuel, [], none⟩
    else ⟨[], .error .clNotInStack⟩

/-! ## Association-list lemmas -/

theorem dictGet_nil (f : List Char) : dictGet (α := α) f [] = none := rfl

theorem keysOf_cons (a : List Char × α) (t : List (List Char × α)) :
    keysOf (a :: t) = a.1 :: keysOf t := rfl

theorem dictGet_cons (a : List Char × α) (t : List (List Char × α)) (f : List Char) :
    dictGet f (a :: t) = if a.1 = f then some a.2 else dictGet f t := by
  cases a
  rfl

theorem dictGet_of_keys_nil {l : List (List Char × α)} (h : keysOf l = [])
    (f : List Char) : dictGet f l = none := by
  cases l with
  | nil => rfl
  | cons a t => simp [keysOf] at h

theorem dictGet_dictPut_self (k : List Char) (v : α) (m : List (List Char × α)) :
    dictGet k (dictPut k v m) = some v := by
  induction m with
  | nil => simp [dictPut, dictGet]
  | cons a t ih =>
      by_cases h : a.1 = k
      · cases a
        simp_all [dictPut, dictGet]
      · cases a
        simp_all [dictPut, dictGet]

theorem mem_keysOf_of_dictGet {l : List (List Char × α)} {f : List Char} {v : α}
    (h : dictGet f l = some v) : f ∈ keysOf l := by
  induction l with
  | nil => simp [dictGet] at h
  | cons a t ih =>
      rw [dictGet_cons] at h
      rw [keysOf_cons]
      by_cases hf : a.1 = f
      · rw [hf]
        exact List.mem_cons_self _ _
      · rw [if_neg hf] at h
        exact List.mem_cons_of_mem _ (ih h)

theorem dictGet_eq_none_iff {l : List (List Char × α)} {f : List Char} :
    dictGet f l = none ↔ f ∉ keysOf l := by
  induction l with
  | nil => simp [dictGet, keysOf]
  | cons a t ih =>
      rw [dictGet_cons, keysOf_cons]
      by_cases hf : a.1 = f
      · rw [if_pos hf, hf]
        simp
      · rw [if_neg hf, List.mem_cons, ih]
        constructor
        · intro hn hc
          rcases hc with hc | hc
          · exact hf hc.symm
          · exact hn hc
        · intro hn hm
          exact hn (Or.inr hm)

theorem dictGet_isSome_iff {l : List (List Char × α)} {f : List Char} :
    (dictGet f l).isSome = true ↔ f ∈ keysOf l := by
  rw [Option.isSome_iff_ne_none]
  exact not_iff_comm.mp dictGet_eq_none_iff.symm

theorem mem_of_dictGet_eq_some {l : List (List Char × α)} {f : List Char} {v : α}
    (h : dictGet f l = some v) : (f, v) ∈ l := by
  induction l with
  | nil => simp [dictGet] at h
  | cons a t ih =>
      rw [dictGet_cons] at h
      by_cases hf : a.1 = f
      · rw [if_pos hf, Option.some_inj] at h
        have : a = (f, v) := by
          cases a
          simp_all
        rw [← this]
        exact List.mem_cons_self _ _
      · rw [if_neg hf] at h
        exact List.mem_cons_of_mem _ (ih h)

theorem dictGet_eq_some_of_mem {l : List (List Char × α)} {f : List Char} {v : α}
    (hn : (keysOf l).Nodup) (h : (f, v) ∈ l) : dictGet f l = some v := by
  induction l with
  | nil => simp at h
  | cons a t ih =>
      rw [keysOf_cons, List.nodup_cons] at hn
      rw [dictGet_cons]
      rcases List.mem_cons.mp h with h | h
      · rw [if_pos (by rw [← h]), ← h]
      · have hne : a.1 ≠ f := by
          intro he
          have : f ∈ keysOf t := by
            rw [keysOf]
            exact List.mem_map_of_mem Prod.fst h
          rw [he] at hn
          exact hn.1 this
        rw [if_neg hne]
        exact ih hn.2 h

/-! ## Folder-merge lookup lemmas -/

theorem dictGet_filterMap (h : List Char → Option β) (L : List (List Char))
    (hL : L.Nodup) (f : List Char) :
    dictGet f (L.filterMap (fun g => (h g).map (fun r => (g, r)))) =
      if f ∈ L then h f else none := by
  induction L with
  | nil => simp [dictGet]
  | cons a t ih =>
      have ha : a ∉ t := (List.nodup_cons.mp hL).1
      have iht := ih (List.nodup_cons.mp hL).2
      rcases hha : h a with _ | r
      · rw [List.filterMap_cons]
        simp only [hha, Option.map_none']
        rw [iht]
        by_cases hf : f = a
        · subst hf
          simp [ha, hha]
        · simp [hf]
      · rw [List.filterMap_cons]
        simp only [hha, Option.map_some']
        by_cases hf : f = a
        · subst hf
          simp [dictGet, hha]
        · have : ¬ (a = f) := fun he => hf he.symm
          simp [dictGet, this, hf, iht]

theorem mem_allFiles_iff {b o t : Snapshot} {f : List Char} :
    f ∈ allFiles b o t ↔ f ∈ keysOf b ∨ f ∈ keysOf o ∨ f ∈ keysOf t := by
  simp [allFiles, List.mem_dedup, or_assoc]

/-- Master lookup description of the folder merge. -/
theorem dictGet_three_way_merge_folder (mrg) (b o t : Snapshot) (f : List Char) :
    dictGet f (three_way_merge_folder mrg b o t) =
      if f ∈ allFiles b o t then
        folder_merge_case mrg (dictGet f b) (dictGet f o) (dictGet f t)
      else none :=
  dictGet_filterMap _ _ (List.nodup_dedup _) f

/-- C3 rows 1–5 need the key to be in the union; a successful lookup puts
it there. -/
theorem mem_allFiles_of_base {b o t : Snapshot} {f : List Char} {v : List Char}
    (h : dictGet f b = some v) : f ∈ allFiles b o t :=
  mem_allFiles_iff.mpr (Or.inl (mem_keysOf_of_dictGet h))

theorem mem_allFiles_of_ours {b o t : Snapshot} {f : List Char} {v : List Char}
    (h : dictGet f o = some v) : f ∈ allFiles b o t :=
  mem_allFiles_iff.mpr (Or.inr (Or.inl (mem_keysOf_of_dictGet h)))

theorem mem_allFiles_of_theirs {b o t : Snapshot} {f : List Char} {v : List Char}
    (h : dictGet f t = some v) : f ∈ allFiles b o t :=
  mem_allFiles_iff.mpr (Or.inr (Or.inr (mem_keysOf_of_dictGet h)))

/-- C3: the folder-level merge follows the closed case table of
`three_way_merge_folder` (`core/rebase.py` lines 124–176): a file present
only in ours or only in theirs yields that content without conflict; a
file present in base, absent on one side and unchanged on the other is
omitted, as is a file absent on both sides; every other case falls
through to the file-level merge `mrg`. -/
theorem three_way_merge_folder_case_table (mrg) (b o t : Snapshot) (f : List Char) :
    (∀ c, dictGet f b = none → dictGet f t = none → dictGet f o = some c →
      dictGet f (three_way_merge_folder mrg b o t) = some (c, false)) ∧
    (∀ c, dictGet f b = none → dictGet f o = none → dictGet f t = some c →
      dictGet f (three_way_merge_folder mrg b o t) = some (c, false)) ∧
    (∀ x, dictGet f b = some x → dictGet f o = none → dictGet f t = some x →
      dictGet f (three_way_merge_folder mrg b o t) = none) ∧
    (∀ x, dictGet f b = some x → dictGet f t = none → dictGet f o = some x →
      dictGet f (three_way_merge_folder mrg b o t) = none) ∧
    (∀ x, dictGet f b = some x → dictGet f o = none → dictGet f t = none →
      dictGet f (three_way_merge_folder mrg b o t) = none) ∧
    (f ∈ allFiles b o t →
      ¬ (dictGet f b = none ∧ dictGet f t = none ∧ (dictGet f o).isSome) →
      ¬ (dictGet f b = none ∧ (dictGet f t).isSome ∧ dictGet f o = none) →
      ¬ (∃ x, dictGet f b = some x ∧ dictGet f o = none ∧ dictGet f t = some x) →
      ¬ (∃ x, dictGet f b = some x ∧ dictGet f t = none ∧ dictGet f o = some x) →
      ¬ ((dictGet f b).isSome ∧ dictGet f o = none ∧ dictGet f t = none) →
      dictGet f (three_way_merge_folder mrg b o t) =
        some (mrg (dictGet f b) (dictGet f o) (dictGet f t))) := by
  refine ⟨?_, ?_, ?_, ?_, ?_, ?_⟩
  · intro c hb ht ho
    rw [dictGet_three_way_merge_folder, if_pos (mem_allFiles_of_ours ho), hb, ht, ho]
    rfl
  · intro c hb ho ht
    rw [dictGet_three_way_merge_folder, if_pos (mem_allFiles_of_theirs ht), hb, ho, ht]
    rfl
  · intro x hb ho ht
    rw [dictGet_three_way_merge_folder, if_pos (mem_allFiles_of_base hb), hb, ho, ht]
    simp [folder_merge_case]
  · intro x hb ht ho
    rw [dictGet_three_way_merge_folder, if_pos (mem_allFiles_of_base hb), hb, ho, ht]
    simp [folder_merge_case]
  · intro x hb ho ht
    rw [dictGet_three_way_merge_folder, if_pos (mem_allFiles_of_base hb), hb, ho, ht]
    rfl
  · intro hmem n1 n2 n3 n4 n5
    rw [dictGet_three_way_merge_folder, if_pos hmem]
    rcases hb : dictGet f b with _ | bc <;>
      rcases ho : dictGet f o with _ | oc <;>
      rcases ht : dictGet f t with _ | tc
    · exfalso
      rcases mem_allFiles_iff.mp hmem with h | h | h
      · exact dictGet_eq_none_iff.mp hb h
      · exact dictGet_eq_none_iff.mp ho h
      · exact dictGet_eq_none_iff.mp ht h
    · exact absurd ⟨hb, by simp [ht], ho⟩ n2
    · exact absurd ⟨hb, ht, by simp [ho]⟩ n1
    · rfl
    · exact absurd ⟨by simp [hb], ho, ht⟩ n5
    · have hne : tc ≠ bc := by
        intro he
        exact n3 ⟨bc, hb, ho, by rw [ht, he]⟩
      simp [folder_merge_case, hne]
    · have hne : oc ≠ bc := by
        intro he
        exact n4 ⟨bc, hb, ht, by rw [ho, he]⟩
      simp [folder_merge_case, hne]
    · rfl

/-- Witness for the case table at concrete snapshots: one instance per
row. -/
theorem three_way_merge_folder_case_table_witness :
    dictGet (sChars "o.txt")
      (three_way_merge_folder (fun _ _ _ => ([], true)) []
        [(sChars "o.txt", sChars "A")] []) = some (sChars "A", false) ∧
    dictGet (sChars "t.txt")
      (three_way_merge_folder (fun _ _ _ => ([], true)) [] []
        [(sChars "t.txt", sChars "B")]) = some (sChars "B", false) ∧
    dictGet (sChars "d.txt")
      (three_way_merge_folder (fun _ _ _ => ([], true))
        [(sChars "d.txt", sChars "C")] []
        [(sChars "d.txt", sChars "C")]) = none ∧
    dictGet (sChars "e.txt")
      (three_way_merge_folder (fun _ _ _ => ([], true))
        [(sChars "e.txt", sChars "D")]
        [(sChars "e.txt", sChars "D")] []) = none ∧
    dictGet (sChars "g.txt")
      (three_way_merge_folder (fun _ _ _ => ([], true))
        [(sChars "g.txt", sChars "E")] [] []) = none ∧
    dictGet (sChars "m.txt")
      (three_way_merge_folder (fun b _ _ => (b.getD [], true))
        [(sChars "m.txt", sChars "F")]
        [(sChars "m.txt", sChars "G")]
        [(sChars "m.txt", sChars "H")]) =
      some (sChars "F", true) := by
  refine ⟨?_, ?_, ?_, ?_, ?_, ?_⟩
  · exact (three_way_merge_folder_case_table _ _ _ _ _).1 (sChars "A") (by decide)
      (by decide) (by decide)
  · exact (three_way_merge_folder_case_table _ _ _ _ _).2.1 (sChars "B") (by decide)
      (by decide) (by decide)
  · exact (three_way_merge_folder_case_table _ _ _ _ _).2.2.1 (sChars "C")
      (by decide) (by decide) (by decide)
  · exact (three_way_merge_folder_case_table _ _ _ _ _).2.2.2.1 (sChars "D")
      (by decide) (by decide) (by decide)
  · exact (three_way_merge_folder_case_table _ _ _ _ _).2.2.2.2.1 (sChars "E")
      (by decide) (by decide) (by decide)
  · exact (three_way_merge_folder_case_table _ _ _ _ _).2.2.2.2.2 (by decide)
      (by decide) (by decide) (by decide) (by decide) (by decide)

/-! ## C1: theirs-only files with an empty ours side -/

theorem dedup_keys_ne_nil {l : Snapshot} (h : l ≠ []) :
    (keysOf l).dedup ≠ [] := by
  intro hd
  have : keysOf l = [] := by
    cases hk : keysOf l with
    | nil => rfl
    | cons a t =>
        exfalso
        have : a ∈ (keysOf l).dedup := List.mem_dedup.mpr (by rw [hk]; exact List.mem_cons_self _ _)
        rw [hd] at this
        simp at this
  cases l with
  | nil => exact h rfl
  | cons a t => simp [keysOf] at this

theorem commit_force_of_new_vs_empty {new : Snapshot} (h : new ≠ []) :
    commit_shelf_action new [] = .forceShelve := by
  have hadd : files_to_add new [] = (keysOf new).dedup := by
    unfold files_to_add
    rw [List.filter_eq_self.mpr]
    intro a _
    simp [hasKey, dictGet]
  unfold commit_shelf_action
  rw [if_pos]
  left
  rw [hadd]
  intro he
  exact dedup_keys_ne_nil h (by
    rcases List.append_eq_nil.mp he with ⟨_, h2⟩
    exact h2)

/-- C1 counterexample: a child whose own shelf (`ours`) is empty rebased
under a parent (`theirs`) shelving one file.  The folder merge emits that
file with the parent's content and no conflict (source lines 147–149),
and writing the merged snapshot to the child force-shelves a non-empty
snapshot — the child's shelf is not left empty. -/
theorem empty_ours_pushes_theirs_counterexample :
    three_way_merge_folder (fun _ _ _ => ([], true)) [] []
        [(sChars "foo.txt", sChars "A")] =
      [(sChars "foo.txt", (sChars "A", false))] ∧
    mergedContents (three_way_merge_folder (fun _ _ _ => ([], true)) [] []
        [(sChars "foo.txt", sChars "A")]) ≠ [] ∧
    commit_shelf_action
        (mergedContents (three_way_merge_folder (fun _ _ _ => ([], true)) [] []
          [(sChars "foo.txt", sChars "A")])) [] = .forceShelve := by
  refine ⟨by decide, by decide, by decide⟩

/-- C1 amended: when `ours` is empty, every file of `theirs` is pushed
into the merged snapshot with the parent's content and no conflict, and
committing that snapshot over the empty original force-shelves it into
the child. -/
theorem empty_ours_pushes_theirs (mrg) (t : Snapshot) (f c : List Char)
    (hf : dictGet f t = some c) :
    dictGet f (three_way_merge_folder mrg [] [] t) = some (c, false) ∧
    mergedContents (three_way_merge_folder mrg [] [] t) ≠ [] ∧
    commit_shelf_action (mergedContents (three_way_merge_folder mrg [] [] t)) [] =
      .forceShelve := by
  have h1 : dictGet f (three_way_merge_folder mrg [] [] t) = some (c, false) :=
    (three_way_merge_folder_case_table mrg [] [] t f).2.1 c rfl rfl hf
  have hne : three_way_merge_folder mrg [] [] t ≠ [] := by
    intro he
    rw [he] at h1
    simp [dictGet] at h1
  have hmc : mergedContents (three_way_merge_folder mrg [] [] t) ≠ [] := by
    intro he
    unfold mergedContents at he
    exact hne (List.map_eq_nil_iff.mp he)
  exact ⟨h1, hmc, commit_force_of_new_vs_empty hmc⟩

theorem empty_ours_pushes_theirs_witness :
    dictGet (sChars "foo.txt")
        (three_way_merge_folder (fun _ _ _ => ([], true)) [] []
          [(sChars "foo.txt", sChars "A")]) = some (sChars "A", false) ∧
    mergedContents (three_way_merge_folder (fun _ _ _ => ([], true)) [] []
        [(sChars "foo.txt", sChars "A")]) ≠ [] ∧
    commit_shelf_action
        (mergedContents (three_way_merge_folder (fun _ _ _ => ([], true)) [] []
          [(sChars "foo.txt", sChars "A")])) [] = .forceShelve :=
  empty_ours_pushes_theirs (fun _ _ _ => ([], true))
    [(sChars "foo.txt", sChars "A")] (sChars "foo.txt") (sChars "A") (by decide)

/-! ## C7: the delete-shelve branch of `commit_snapshot_to_cl` -/

/-- C7: with an empty desired snapshot and a non-empty previous one the
commit step force-shelves (the deletes make `files_to_delete` non-empty,
so the first branch fires), and the `shelve(delete=True)` branch of
source lines 255–258 is unreachable for every input: its guard
`not new_files and original_files` forces `files_to_delete` non-empty,
which already took the force-shelve branch. -/
theorem commit_shelf_delete_branch_dead :
    commit_shelf_action [] [(sChars "file.txt", sChars "content")] = .forceShelve ∧
    ∀ new_snapshot original_snapshot : Snapshot,
      commit_shelf_action new_snapshot original_snapshot ≠ .deleteShelve := by
  constructor
  · decide
  · intro n o
    unfold commit_shelf_action
    split_ifs with h1 h2
    · decide
    · exfalso
      push_neg at h1
      have hn : n = [] := by
        have : keysOf n = [] := by
          cases hk : keysOf n with
          | nil => rfl
          | cons a tl =>
              exfalso
              have ha : a ∈ (keysOf n).dedup :=
                List.mem_dedup.mpr (by rw [hk]; exact List.mem_cons_self _ _)
              rw [h2.1] at ha
              simp at ha
        cases n with
        | nil => rfl
        | cons a tl => simp [keysOf] at this
      have hdel : files_to_delete n o = (keysOf o).dedup := by
        unfold files_to_delete
        rw [List.filter_eq_self.mpr]
        intro a _
        rw [hn]
        simp [hasKey, dictGet]
      rw [hdel] at h1
      exact h2.2 h1.2
    · decide

/-! ## C8: a pre-existing operation log blocks a new update -/

/-- C8: when the state file already exists, `_handle_new_update` fails
with the log-exists error before emitting a single Perforce action: no
changelist, shelf, or workspace mutation happens. -/
theorem handle_new_update_log_exists (raw : List RawChange)
    (cl_num : List Char) (conflicts : List Char → Bool) (fuel : Nat) :
    handle_new_update true raw cl_num conflicts fuel =
      ⟨[], .error .logExists⟩ := rfl

/-! ## C9: basename collisions in `get_cl_snapshot` -/

/-- C9 counterexample: two depot files sharing the basename `f.txt` in
one shelved CL.  `get_cl_snapshot` returns normally with the two files
collapsed onto one key (the later file wins both maps); no error is
raised. -/
theorem get_cl_snapshot_collision :
    get_cl_snapshot
        [(sChars "//depot/a/f.txt", sChars "c1"),
         (sChars "//depot/b/f.txt", sChars "c2")] =
      ([(sChars "f.txt", sChars "c2")],
       [(sChars "f.txt", sChars "//depot/b/f.txt")]) := by decide

/-- C9 amended: on a basename collision the read silently collapses the
colliding files: the last printed file wins both the snapshot and the
depot map, and the function returns normally. -/
theorem get_cl_snapshot_last_wins (printed : List (List Char × List Char))
    (d c : List Char) :
    dictGet (pathBasename (stripQuotes d))
        (get_cl_snapshot (printed ++ [(d, c)])).1 = some c ∧
    dictGet (pathBasename (stripQuotes d))
        (get_cl_snapshot (printed ++ [(d, c)])).2 = some (stripQuotes d) := by
  unfold get_cl_snapshot
  rw [List.foldl_append]
  constructor
  · exact dictGet_dictPut_self _ _ _
  · exact dictGet_dictPut_self _ _ _

/-! ## C10: `save_state` swallows IOError -/

/-- C10: an `IOError` during the state-file write is only printed:
`save_state` raises nothing and returns normally, while the log on disk
was not written — the in-memory state and the persisted log disagree. -/
theorem save_state_swallows_ioerror (msg : List Char) :
    (save_state (.ioError msg)).raised = none ∧
    (save_state (.ioError msg)).fileWritten = false ∧
    (save_state (.ioError msg)).printed ≠ [] ∧
    (save_state .written).raised = none := by
  refine ⟨rfl, rfl, ?_, rfl⟩
  simp [save_state]

/-! ## Tag-removal lemmas (C5, C6)

`DEPENDS_ON_RE.sub` can create a fresh tag out of the fragments around a
removed match, so `set_depends_on` is not idempotent unconditionally; it
is as soon as the cleaned description has no residual match
(`checkNoTag`).  The lemmas below show that on `clean ++ tag` the scan
deletes exactly the appended tag: no match can span from `clean` into
the tag because the literal contains no newline and the two `\n`
separators are followed by a non-digit. -/

theorem tagNum_of_dropWhile_nil {r : List Char}
    (h : r.dropWhile pyIsSpace = []) : tagNum r = none := by
  unfold tagNum
  rw [h]

theorem keysOf_dictPut (k : List Char) (v : α) (m : List (List Char × α)) :
    keysOf (dictPut k v m) =
      if k ∈ keysOf m then keysOf m else keysOf m ++ [k] := by
  induction m with
  | nil => simp [dictPut, keysOf]
  | cons a t ih =>
      by_cases h : a.1 = k
      · rw [show dictPut k v (a :: t) = (k, v) :: t from by rw [dictPut, if_pos h]]
        rw [keysOf_cons, keysOf_cons, if_pos (by rw [← h]; exact List.mem_cons_self _ _)]
        rw [h]
      · rw [show dictPut k v (a :: t) = a :: dictPut k v t from by rw [dictPut, if_neg h]]
        rw [keysOf_cons, keysOf_cons, ih]
        by_cases hm : k ∈ keysOf t
        · rw [if_pos hm, if_pos (List.mem_cons_of_mem _ hm)]
        · rw [if_neg hm, if_neg (by
            intro hc
            rcases List.mem_cons.mp hc with hc | hc
            · exact h hc.symm
            · exact hm hc)]
          rw [List.cons_append]

theorem nodup_keys_dictPut (k : List Char) (v : α) {m : List (List Char × α)}
    (hn : (keysOf m).Nodup) : (keysOf (dictPut k v m)).Nodup := by
  rw [keysOf_dictPut]
  by_cases hm : k ∈ keysOf m
  · rw [if_pos hm]
    exact hn
  · rw [if_neg hm, List.nodup_append]
    exact ⟨hn, List.nodup_singleton _, by
      intro x hx hk
      rw [List.mem_singleton.mp hk] at hx
      exact hm hx⟩

theorem changes_map_nodup_keys (raw : List RawChange) :
    (keysOf (changes_map raw)).Nodup := by
  unfold changes_map
  have : ∀ acc : List (List Char × (List Char × Option (List Char))),
      (keysOf acc).Nodup →
      (keysOf (raw.foldl
        (fun m rc =>
          match rc.change with
          | none => m
          | some cl =>
              if cl = [] then m
              else dictPut cl (rc.desc, parse_depends_on rc.desc) m) acc)).Nodup := by
    induction raw with
    | nil => intro acc h; exact h
    | cons rc rest ih =>
        intro acc h
        rw [List.foldl_cons]
        apply ih
        rcases rc.change with _ | cl
        · exact h
        · by_cases hcl : cl = []
          · simp only [hcl, if_pos rfl]
            exact h
          · simp only [if_neg hcl]
            exact nodup_keys_dictPut _ _ h
  exact this [] (by simp [keysOf])

theorem mem_edges_iff {raw : List RawChange} {p c : List Char} :
    (p, c) ∈ (build_stack_graph raw).edges ↔
      ∃ dp, (c, dp) ∈ changes_map raw ∧
        linkGuard (changes_map raw) dp.2 = some p := by
  rw [show (build_stack_graph raw).edges = (changes_map raw).filterMap
    (fun e => (linkGuard (changes_map raw) e.2.2).map (fun q => (q, e.1)))
    from rfl]
  rw [List.mem_filterMap]
  constructor
  · rintro ⟨e, he, hfe⟩
    rw [Option.map_eq_some'] at hfe
    rcases hfe with ⟨a, hg, heq⟩
    rw [Prod.mk.injEq] at heq
    refine ⟨e.2, ?_, ?_⟩
    · rw [← heq.2]
      simpa using he
    · rw [hg, heq.1]
  · rintro ⟨dp, hm, hg⟩
    exact ⟨(c, dp), hm, by rw [hg]; rfl⟩

theorem mem_rootsRaw_iff {raw : List RawChange} {r : List Char} :
    r ∈ (build_stack_graph raw).rootsRaw ↔
      ∃ dp, (r, dp) ∈ changes_map raw ∧
        linkGuard (changes_map raw) dp.2 = none := by
  rw [show (build_stack_graph raw).rootsRaw = (changes_map raw).filterMap
    (fun e => if (linkGuard (changes_map raw) e.2.2).isSome then none
              else some e.1) from rfl]
  rw [List.mem_filterMap]
  constructor
  · rintro ⟨e, he, hfe⟩
    by_cases hg : (linkGuard (changes_map raw) e.2.2).isSome
    · rw [if_pos hg] at hfe
      cases hfe
    · rw [if_neg hg] at hfe
      rw [Option.some_inj] at hfe
      refine ⟨e.2, ?_, ?_⟩
      · rw [← hfe]
        simpa using he
      · simpa [Option.not_isSome_iff_eq_none] using hg
  · rintro ⟨dp, hm, hg⟩
    refine ⟨(r, dp), hm, ?_⟩
    rw [show ((r, dp) : List Char × (List Char × Option (List Char))).2.2 = dp.2
      from rfl, hg]
    rfl

theorem mem_sortByNum {l : List (List Char)} {x : List Char} :
    x ∈ sortByNum l ↔ x ∈ l :=
  (List.perm_insertionSort _ l).mem_iff

theorem effParent_eq_some_iff {raw : List RawChange} {c p : List Char} :
    effParent (build_stack_graph raw) c = some p ↔
      (p, c) ∈ (build_stack_graph raw).edges := by
  rw [mem_edges_iff]
  unfold effParent
  rw [show (build_stack_graph raw).map = changes_map raw from rfl]
  constructor
  · intro h
    rcases hd : dictGet c (changes_map raw) with _ | dp
    · rw [hd] at h
      cases h
    · rw [hd] at h
      exact ⟨dp, mem_of_dictGet_eq_some hd, h⟩
  · rintro ⟨dp, hm, hg⟩
    rw [dictGet_eq_some_of_mem (changes_map_nodup_keys raw) hm]
    exact hg

theorem mem_childrenOf_iff {raw : List RawChange} {p c : List Char} :
    c ∈ childrenOf (build_stack_graph raw) p ↔
      (p, c) ∈ (build_stack_graph raw).edges := by
  unfold childrenOf
  rw [mem_sortByNum, List.mem_map]
  constructor
  · rintro ⟨e, he, hsnd⟩
    rw [List.mem_filter] at he
    have hfst : e.1 = p := by simpa using he.2
    have : e = (p, c) := by
      cases e
      simp_all
    rw [← this]
    exact he.1
  · intro h
    exact ⟨(p, c), List.mem_filter.mpr ⟨h, by simp⟩, rfl⟩

theorem effParent_of_child {raw : List RawChange} {p c : List Char}
    (h : c ∈ childrenOf (build_stack_graph raw) p) :
    effParent (build_stack_graph raw) c = some p :=
  effParent_eq_some_iff.mpr (mem_childrenOf_iff.mp h)

theorem parent_unique {raw : List RawChange} {p q c : List Char}
    (hp : c ∈ childrenOf (build_stack_graph raw) p)
    (hq : c ∈ childrenOf (build_stack_graph raw) q) : p = q := by
  have h1 := effParent_of_child hp
  have h2 := effParent_of_child hq
  rw [h1, Option.some_inj] at h2
  exact h2

theorem mem_roots_iff {raw : List RawChange} {r : List Char} :
    r ∈ rootsOf (build_stack_graph raw) ↔
      r ∈ keysOf (changes_map raw) ∧
        effParent (build_stack_graph raw) r = none := by
  unfold rootsOf
  rw [mem_sortByNum, mem_rootsRaw_iff]
  constructor
  · rintro ⟨dp, hm, hg⟩
    refine ⟨by
      have := List.mem_map_of_mem Prod.fst hm
      simpa [keysOf] using this, ?_⟩
    unfold effParent
    rw [show (build_stack_graph raw).map = changes_map raw from rfl]
    rw [dictGet_eq_some_of_mem (changes_map_nodup_keys raw) hm]
    exact hg
  · rintro ⟨hk, hnone⟩
    unfold effParent at hnone
    rw [show (build_stack_graph raw).map = changes_map raw from rfl] at hnone
    rcases hd : dictGet r (changes_map raw) with _ | dp
    · exact absurd (dictGet_eq_none_iff.mp hd) (by simpa using hk)
    · rw [hd] at hnone
      exact ⟨dp, mem_of_dictGet_eq_some hd, hnone⟩

/-- Every child recorded in the edge list is a key of the map, and the
`snd` components of the edge list are exactly distinct keys. -/
theorem edges_snd_nodup (raw : List RawChange) :
    (((build_stack_graph raw).edges).map Prod.snd).Nodup := by
  rw [show (build_stack_graph raw).edges = (changes_map raw).filterMap
    (fun e => (linkGuard (changes_map raw) e.2.2).map (fun q => (q, e.1)))
    from rfl]
  have key : ∀ (m : List (List Char × (List Char × Option (List Char))))
      (G : Option (List Char) → Option (List Char)),
      (keysOf m).Nodup →
      ((m.filterMap (fun e => (G e.2.2).map (fun q => (q, e.1)))).map
        Prod.snd).Nodup := by
    intro m G
    induction m with
    | nil => intro _; simp
    | cons e t ih =>
        intro hn
        rw [keysOf_cons, List.nodup_cons] at hn
        rw [List.filterMap_cons]
        rcases hG : G e.2.2 with _ | q
        · simp only [Option.map_none']
          exact ih hn.2
        · simp only [Option.map_some']
          rw [List.map_cons, List.nodup_cons]
          refine ⟨?_, ih hn.2⟩
          intro hc
          rw [List.mem_map] at hc
          rcases hc with ⟨x, hx, hxe⟩
          rw [List.mem_filterMap] at hx
          rcases hx with ⟨a, ha, hfa⟩
          rw [Option.map_eq_some'] at hfa
          rcases hfa with ⟨b, _, hba⟩
          have : x.2 = a.1 := by rw [← hba]
          apply hn.1
          rw [show ((q, e.1) : List Char × List Char).2 = e.1 from rfl] at hxe
          rw [← hxe, this]
          unfold keysOf
          exact List.mem_map_of_mem Prod.fst ha
  exact key _ _ (changes_map_nodup_keys raw)

theorem childrenOf_nodup (raw : List RawChange) (p : List Char) :
    (childrenOf (build_stack_graph raw) p).Nodup := by
  unfold childrenOf
  apply ((List.perm_insertionSort _ _).nodup_iff).mpr
  exact (edges_snd_nodup raw).sublist
    (List.Sublist.map Prod.snd (List.filter_sublist _))

/-! ## Parent-chain iteration: cyclic nodes never reach a root -/

theorem parentIter_succ (g : StackGraph) (k : Nat) (n : List Char) :
    parentIter g (k + 1) n = (effParent g n).bind (parentIter g k) := by
  rcases h : effParent g n with _ | p <;> simp [parentIter, h]

theorem parentIter_add (g : StackGraph) (a b : Nat) (n : List Char) :
    parentIter g (a + b) n = (parentIter g a n).bind (parentIter g b) := by
  induction a generalizing n with
  | zero =>
      rw [Nat.zero_add]
      rfl
  | succ a ih =>
      rw [show a + 1 + b = (a + b) + 1 from by omega, parentIter_succ,
        parentIter_succ]
      rcases h : effParent g n with _ | p
      · rfl
      · exact ih p

theorem parentIter_one_of_child {raw : List RawChange} {p c : List Char}
    (h : c ∈ childrenOf (build_stack_graph raw) p) :
    parentIter (build_stack_graph raw) 1 c = some p := by
  rw [parentIter_succ, effParent_of_child h]
  rfl

theorem transGen_parentIter {raw : List RawChange} {p c : List Char}
    (h : Relation.TransGen (chStep (childrenOf (build_stack_graph raw))) p c) :
    ∃ k, 0 < k ∧ parentIter (build_stack_graph raw) k c = some p := by
  induction h with
  | single hstep => exact ⟨1, Nat.one_pos, parentIter_one_of_child hstep⟩
  | tail hab hbc ih =>
      rcases ih with ⟨k, hk, hiter⟩
      refine ⟨k + 1, Nat.succ_pos _, ?_⟩
      rw [show k + 1 = 1 + k from by omega, parentIter_add,
        parentIter_one_of_child hbc]
      exact hiter

theorem reflTransGen_parentIter {raw : List RawChange} {r n : List Char}
    (h : Relation.ReflTransGen (chStep (childrenOf (build_stack_graph raw))) r n) :
    ∃ j, parentIter (build_stack_graph raw) j n = some r := by
  induction h with
  | refl => exact ⟨0, rfl⟩
  | tail hab hbc ih =>
      rcases ih with ⟨j, hiter⟩
      refine ⟨j + 1, ?_⟩
      rw [show j + 1 = 1 + j from by omega, parentIter_add,
        parentIter_one_of_child hbc]
      exact hiter

theorem no_cycle_of_rooted {g : StackGraph} {n r : List Char}
    (hr : effParent g r = none) (j : Nat)
    (hj : parentIter g j n = some r) :
    ∀ k, 0 < k → parentIter g k n ≠ some n := by
  intro k hk hcyc
  have hdead : parentIter g (j + 1) n = none := by
    rw [parentIter_add, hj]
    show parentIter g 1 r = none
    rw [parentIter_succ, hr]
    rfl
  have hmono : ∀ s, parentIter g (j + 1 + s) n = none := by
    intro s
    rw [parentIter_add, hdead]
    rfl
  have hper : ∀ m, parentIter g (m * k) n = some n := by
    intro m
    induction m with
    | zero => rw [Nat.zero_mul]; rfl
    | succ m ih =>
        rw [show (m + 1) * k = m * k + k from by ring, parentIter_add, ih]
        exact hcyc
  have hge : j + 2 ≤ (j + 2) * k := Nat.le_mul_of_pos_right _ hk
  obtain ⟨s, hs⟩ : ∃ s, (j + 2) * k = j + 1 + s := ⟨(j + 2) * k - (j + 1), by omega⟩
  have h1 := hper (j + 2)
  rw [hs, hmono s] at h1
  cases h1

/-! ## C2: cycle handling in `build_stack_graph` -/

/-- C2 counterexample: CLs 1 and 2 referencing each other.  The claim
says the back-edge is dropped and the smaller CL 1 becomes a root; the
code gives neither node a root slot — the returned forest is empty. -/
theorem build_stack_graph_cycle_drops_nodes :
    rootsOf (build_stack_graph exampleCycleRaw) = [] := by decide

/-- C2 amended: nodes on a dependency cycle are dropped from the
returned forest entirely — they neither become roots nor are reachable
from any root (their mutual parent links stay in the children lists, off
to the side); the forest actually returned is acyclic, and every node
that is a key but not a root has exactly one parent. -/
theorem build_stack_graph_cycle_policy (raw : List RawChange) :
    (∀ n, Relation.TransGen (chStep (childrenOf (build_stack_graph raw))) n n →
      n ∉ rootsOf (build_stack_graph raw)) ∧
    (∀ r n, r ∈ rootsOf (build_stack_graph raw) →
      Relation.ReflTransGen (chStep (childrenOf (build_stack_graph raw))) r n →
      ¬ Relation.TransGen (chStep (childrenOf (build_stack_graph raw))) n n) ∧
    (∀ c, c ∈ keysOf (changes_map raw) →
      c ∉ rootsOf (build_stack_graph raw) →
      ∃! p, c ∈ childrenOf (build_stack_graph raw) p) := by
  refine ⟨?_, ?_, ?_⟩
  · intro n hcyc hroot
    rcases (Relation.TransGen.tail'_iff).mp hcyc with ⟨b, _, hstep⟩
    have hp := effParent_of_child hstep
    have := (mem_roots_iff.mp hroot).2
    rw [this] at hp
    cases hp
  · intro r n hr hreach hcyc
    have hrnone := (mem_roots_iff.mp hr).2
    rcases reflTransGen_parentIter hreach with ⟨j, hj⟩
    rcases transGen_parentIter hcyc with ⟨k, hk, hcyck⟩
    exact no_cycle_of_rooted hrnone j hj k hk hcyck
  · intro c hk hroot
    have hsome : ∃ p, effParent (build_stack_graph raw) c = some p := by
      rcases he : effParent (build_stack_graph raw) c with _ | p
      · exact absurd (mem_roots_iff.mpr ⟨hk, he⟩) hroot
      · exact ⟨p, rfl⟩
    rcases hsome with ⟨p, hp⟩
    refine ⟨p, mem_childrenOf_iff.mpr (effParent_eq_some_iff.mp hp), ?_⟩
    intro q hq
    have := effParent_of_child hq
    rw [hp, Option.some_inj] at this
    exact this.symm

/-- Witness instances of the cycle policy: on the two-cycle, node 1 is
proved cyclic (1 → 2 → 1) and hence not a root; on the well-formed
stack, 101 is reachable from root 100 and acyclic, and has exactly one
parent. -/
theorem build_stack_graph_cycle_policy_witness :
    sChars "1" ∉ rootsOf (build_stack_graph exampleCycleRaw) ∧
    ¬ Relation.TransGen (chStep (childrenOf (build_stack_graph exampleLinRaw)))
      (sChars "101") (sChars "101") ∧
    (∃! p, sChars "101" ∈ childrenOf (build_stack_graph exampleLinRaw) p) := by
  refine ⟨?_, ?_, ?_⟩
  · exact (build_stack_graph_cycle_policy exampleCycleRaw).1 (sChars "1")
      (Relation.TransGen.tail
        (Relation.TransGen.single (show chStep _ (sChars "1") (sChars "2") by
          unfold chStep
          decide))
        (show chStep _ (sChars "2") (sChars "1") by
          unfold chStep
          decide))
  · exact (build_stack_graph_cycle_policy exampleLinRaw).2.1 (sChars "100")
      (sChars "101") (by rw [mem_roots_iff]; refine ⟨by decide, by decide⟩)
      (Relation.ReflTransGen.single (show chStep _ (sChars "100") (sChars "101") by
        unfold chStep
        decide))
  · exact (build_stack_graph_cycle_policy exampleLinRaw).2.2 (sChars "101")
      (by decide) (by
        intro hroot
        rw [mem_roots_iff] at hroot
        have := hroot.2
        revert this
        decide)

/-! ## `Precedes` helper lemmas -/

theorem precedes_mem {L : List α} {x y : α} (h : Precedes L x y) :
    x ∈ L ∧ y ∈ L := by
  rcases h with ⟨l₁, l₂, rfl, hx, hy⟩
  exact ⟨List.mem_append_left _ hx, List.mem_append_right _ hy⟩

theorem precedes_head {L : List α} {x y : α} (h : y ∈ L) :
    Precedes (x :: L) x y :=
  ⟨[x], L, rfl, List.mem_singleton_self x, h⟩

theorem precedes_cons {L : List α} {x y : α} (c : α) (h : Precedes L x y) :
    Precedes (c :: L) x y := by
  rcases h with ⟨l₁, l₂, rfl, hx, hy⟩
  exact ⟨c :: l₁, l₂, rfl, List.mem_cons_of_mem _ hx, hy⟩

theorem precedes_append_left {L : List α} {x y : α} (w : List α)
    (h : Precedes L x y) : Precedes (w ++ L) x y := by
  rcases h with ⟨l₁, l₂, rfl, hx, hy⟩
  exact ⟨w ++ l₁, l₂, by rw [List.append_assoc], List.mem_append_right _ hx, hy⟩

theorem precedes_append_right {L : List α} {x y : α} (w : List α)
    (h : Precedes L x y) : Precedes (L ++ w) x y := by
  rcases h with ⟨l₁, l₂, rfl, hx, hy⟩
  exact ⟨l₁, l₂ ++ w, by rw [List.append_assoc], hx, List.mem_append_left _ hy⟩

theorem precedes_of_mem_mem {l₁ l₂ : List α} {x y : α} (hx : x ∈ l₁)
    (hy : y ∈ l₂) : Precedes (l₁ ++ l₂) x y :=
  ⟨l₁, l₂, rfl, hx, hy⟩

theorem precedes_irrefl_of_nodup {L : List α} (h : L.Nodup) (x : α) :
    ¬ Precedes L x x := by
  rintro ⟨l₁, l₂, rfl, hx1, hx2⟩
  exact (List.disjoint_of_nodup_append h) hx1 hx2

theorem precedes_cons_elim {L : List α} {a x y : α} (h : Precedes (a :: L) x y)
    (hne : x ≠ a) : Precedes L x y := by
  rcases h with ⟨l₁, l₂, heq, hx, hy⟩
  cases l₁ with
  | nil => simp at hx
  | cons b l₁ =>
      rw [List.cons_append] at heq
      injection heq with h1 h2
      rcases List.mem_cons.mp hx with hx | hx
      · exact absurd (hx.trans h1.symm) hne
      · exact ⟨l₁, l₂, h2, hx, hy⟩

theorem precedes_first_ne {L : List α} {a x : α} (hnd : (a :: L).Nodup) :
    ¬ Precedes (a :: L) x a := by
  rintro ⟨l₁, l₂, heq, hx, ha⟩
  cases l₁ with
  | nil => simp at hx
  | cons b l₁ =>
      rw [List.cons_append] at heq
      injection heq with h1 h2
      rw [List.nodup_cons] at hnd
      apply hnd.1
      rw [h2]
      exact List.mem_append_right _ ha

theorem mem_split_order {L : List α} {x y : α} (hx : x ∈ L) (hy : y ∈ L)
    (hne : x ≠ y) : Precedes L x y ∨ Precedes L y x := by
  induction L with
  | nil => simp at hx
  | cons a t ih =>
      by_cases hxa : x = a
      · subst hxa
        left
        exact precedes_head (by
          rcases List.mem_cons.mp hy with h | h
          · exact absurd h.symm hne
          · exact h)
      · by_cases hya : y = a
        · subst hya
          right
          exact precedes_head (by
            rcases List.mem_cons.mp hx with h | h
            · exact absurd h hxa
            · exact h)
        · rcases ih (by
              rcases List.mem_cons.mp hx with h | h
              · exact absurd h hxa
              · exact h)
            (by
              rcases List.mem_cons.mp hy with h | h
              · exact absurd h hya
              · exact h) with h | h
          · exact Or.inl (precedes_cons a h)
          · exact Or.inr (precedes_cons a h)

theorem precedes_pairwise {L : List α} {R : α → α → Prop} {x y : α}
    (h : Precedes L x y) (hp : L.Pairwise R) : R x y := by
  rcases h with ⟨l₁, l₂, rfl, hx, hy⟩
  exact (List.pairwise_append.mp hp).2.2 x hx y hy

/-! ## Breadth-first traversal invariants (C4)

Generic over a `children` map whose lists are duplicate-free (`H1`) and
in which each node has at most one parent (`H2`) — both hold for every
built stack graph. -/

theorem transGen_last_edge {children : List Char → List (List Char)}
    {a c : List Char}
    (h : Relation.TransGen (chStep children) a c) :
    ∃ b, Relation.ReflTransGen (chStep children) a b ∧ c ∈ children b :=
  (Relation.TransGen.tail'_iff).mp h

theorem star_cases {children : List Char → List (List Char)} {a b : List Char}
    (h : Relation.ReflTransGen (chStep children) a b) :
    b = a ∨ Relation.TransGen (chStep children) a b :=
  (Relation.reflTransGen_iff_eq_or_transGen).mp h

theorem qinv_step {children : List Char → List (List Char)}
    (H1 : ∀ p, (children p).Nodup)
    (H2 : ∀ c p q, c ∈ children p → c ∈ children q → p = q)
    {n : List Char} {Qt : List (List Char)}
    (h : QInv children (n :: Qt)) : QInv children (Qt ++ children n) := by
  obtain ⟨hnd, hdesc, hpar, hord⟩ := h
  have hnQt : n ∉ Qt := (List.nodup_cons.mp hnd).1
  have hQtnd : Qt.Nodup := (List.nodup_cons.mp hnd).2
  refine ⟨?_, ?_, ?_, ?_⟩
  · rw [List.nodup_append]
    refine ⟨hQtnd, H1 n, ?_⟩
    intro x hx hxc
    exact hdesc n (List.mem_cons_self _ _) x (List.mem_cons_of_mem _ hx)
      (Relation.TransGen.single hxc)
  · intro m hm c hc htg
    rcases List.mem_append.mp hm with hm | hm <;>
      rcases List.mem_append.mp hc with hc | hc
    · exact hdesc m (List.mem_cons_of_mem _ hm) c (List.mem_cons_of_mem _ hc) htg
    · rcases transGen_last_edge htg with ⟨b, hstar, hbc⟩
      have hb : b = n := H2 c b n hbc hc
      rcases star_cases hstar with he | htg2
      · exact hnQt ((he.symm.trans hb) ▸ hm)
      · exact hdesc m (List.mem_cons_of_mem _ hm) n (List.mem_cons_self _ _)
          (hb ▸ htg2)
    · exact hdesc n (List.mem_cons_self _ _) c (List.mem_cons_of_mem _ hc)
        (Relation.TransGen.head hm htg)
    · rcases transGen_last_edge htg with ⟨b, hstar, hbc⟩
      have hb : b = n := H2 c b n hbc hc
      rcases star_cases hstar with he | htg2
      · exact hdesc n (List.mem_cons_self _ _) n (List.mem_cons_self _ _)
          (Relation.TransGen.single ((he.symm.trans hb) ▸ hm))
      · exact hdesc n (List.mem_cons_self _ _) n (List.mem_cons_self _ _)
          (Relation.TransGen.head hm (hb ▸ htg2))
  · intro m hm p hmp x hx hstar
    rcases List.mem_append.mp hm with hm | hm
    · rcases List.mem_append.mp hx with hx | hx
      · exact hpar m (List.mem_cons_of_mem _ hm) p hmp x
          (List.mem_cons_of_mem _ hx) hstar
      · exact hpar m (List.mem_cons_of_mem _ hm) p hmp n (List.mem_cons_self _ _)
          (Relation.ReflTransGen.head hx hstar)
    · have hp : p = n := H2 m p n hmp hm
      rcases List.mem_append.mp hx with hx | hx
      · rcases star_cases hstar with he | htg2
        · exact hnQt ((he.symm.trans hp) ▸ hx)
        · exact hdesc x (List.mem_cons_of_mem _ hx) n (List.mem_cons_self _ _)
            (hp ▸ htg2)
      · rcases star_cases hstar with he | htg2
        · exact hdesc n (List.mem_cons_self _ _) n (List.mem_cons_self _ _)
            (Relation.TransGen.single ((he.symm.trans hp) ▸ hx))
        · exact hdesc n (List.mem_cons_self _ _) n (List.mem_cons_self _ _)
            (Relation.TransGen.head hx (hp ▸ htg2))
  · intro p c d hpcd hc hd
    rcases List.mem_append.mp hc with hc | hc <;>
      rcases List.mem_append.mp hd with hd | hd
    · have h4 := hord p c d hpcd (List.mem_cons_of_mem _ hc)
        (List.mem_cons_of_mem _ hd)
      exact precedes_append_right _ (precedes_cons_elim h4 (by
        intro he
        exact hnQt (he ▸ hc)))
    · exact precedes_of_mem_mem hc hd
    · exfalso
      have hcp : c ∈ children p := (precedes_mem hpcd).1
      have hdp : d ∈ children p := (precedes_mem hpcd).2
      have hp : p = n := H2 c p n hcp hc
      exact hdesc n (List.mem_cons_self _ _) d (List.mem_cons_of_mem _ hd)
        (Relation.TransGen.single (hp ▸ hdp))
    · have hcp : c ∈ children p := (precedes_mem hpcd).1
      have hp : p = n := H2 c p n hcp hc
      exact precedes_append_left _ (hp ▸ hpcd)

theorem qinv_init {children : List Char → List (List Char)}
    (H1 : ∀ p, (children p).Nodup) {base : List Char}
    (hbase : ¬ Relation.TransGen (chStep children) base base) :
    QInv children [base] := by
  refine ⟨List.nodup_singleton _, ?_, ?_, ?_⟩
  · intro m hm c hc htg
    have hm2 := List.mem_singleton.mp hm
    have hc2 := List.mem_singleton.mp hc
    subst hm2
    subst hc2
    exact hbase htg
  · intro m hm p hmp x hx hstar
    have hm2 := List.mem_singleton.mp hm
    have hx2 := List.mem_singleton.mp hx
    subst hm2
    subst hx2
    rcases star_cases hstar with he | htg2
    · exact hbase (Relation.TransGen.single (he ▸ hmp))
    · exact hbase (Relation.TransGen.tail htg2 hmp)
  · intro p c d hpcd hc hd
    rw [List.mem_singleton] at hc hd
    subst hc
    rw [hd] at hpcd
    exact absurd hpcd (precedes_irrefl_of_nodup (H1 p) _)

theorem bfsAux_mem {children : List Char → List (List Char)} :
    ∀ fuel Q x, x ∈ bfsAux children fuel Q →
      ∃ q ∈ Q, Relation.ReflTransGen (chStep children) q x := by
  intro fuel
  induction fuel with
  | zero => intro Q x hx; simp [bfsAux] at hx
  | succ fuel ih =>
      intro Q x hx
      cases Q with
      | nil => simp [bfsAux] at hx
      | cons n Qt =>
          rcases List.mem_cons.mp hx with he | hx2
          · exact ⟨n, List.mem_cons_self _ _, he ▸ Relation.ReflTransGen.refl⟩
          · rcases ih (Qt ++ children n) x hx2 with ⟨q, hq, hstar⟩
            rcases List.mem_append.mp hq with hq | hq
            · exact ⟨q, List.mem_cons_of_mem _ hq, hstar⟩
            · exact ⟨n, List.mem_cons_self _ _,
                Relation.ReflTransGen.head hq hstar⟩

theorem bfsAux_nodup {children : List Char → List (List Char)}
    (H1 : ∀ p, (children p).Nodup)
    (H2 : ∀ c p q, c ∈ children p → c ∈ children q → p = q) :
    ∀ fuel Q, QInv children Q → (bfsAux children fuel Q).Nodup := by
  intro fuel
  induction fuel with
  | zero => intro Q _; simp [bfsAux]
  | succ fuel ih =>
      intro Q hinv
      cases Q with
      | nil => simp [bfsAux]
      | cons n Qt =>
          show (n :: bfsAux children fuel (Qt ++ children n)).Nodup
          rw [List.nodup_cons]
          refine ⟨?_, ih _ (qinv_step H1 H2 hinv)⟩
          intro hn
          rcases bfsAux_mem fuel _ n hn with ⟨q, hq, hstar⟩
          rcases List.mem_append.mp hq with hq | hq
          · rcases star_cases hstar with he | htg
            · exact (List.nodup_cons.mp hinv.1).1 (he ▸ hq)
            · exact hinv.2.1 q (List.mem_cons_of_mem _ hq) n
                (List.mem_cons_self _ _) htg
          · rcases star_cases hstar with he | htg
            · exact hinv.2.1 n (List.mem_cons_self _ _) n (List.mem_cons_self _ _)
                (Relation.TransGen.single (he ▸ hq))
            · exact hinv.2.1 n (List.mem_cons_self _ _) n (List.mem_cons_self _ _)
                (Relation.TransGen.head hq htg)

theorem bfsAux_edge_order {children : List Char → List (List Char)}
    (H1 : ∀ p, (children p).Nodup)
    (H2 : ∀ c p q, c ∈ children p → c ∈ children q → p = q) :
    ∀ fuel Q, QInv children Q → ∀ p c, c ∈ children p →
      p ∈ bfsAux children fuel Q → c ∈ bfsAux children fuel Q →
      Precedes (bfsAux children fuel Q) p c := by
  intro fuel
  induction fuel with
  | zero => intro Q _ p c _ hp _; simp [bfsAux] at hp
  | succ fuel ih =>
      intro Q hinv p c hpc hp hc
      cases Q with
      | nil => simp [bfsAux] at hp
      | cons n Qt =>
          rw [show bfsAux children (fuel + 1) (n :: Qt) =
            n :: bfsAux children fuel (Qt ++ children n) from rfl] at hp hc ⊢
          by_cases hpn : p = n
          · subst hpn
            have hcn : c ≠ p := by
              intro he
              exact hinv.2.1 p (List.mem_cons_self _ _) p (List.mem_cons_self _ _)
                (Relation.TransGen.single (he ▸ hpc))
            exact precedes_head (by
              rcases List.mem_cons.mp hc with he | hc2
              · exact absurd he hcn
              · exact hc2)
          · have hp2 : p ∈ bfsAux children fuel (Qt ++ children n) := by
              rcases List.mem_cons.mp hp with he | hp2
              · exact absurd he hpn
              · exact hp2
            have hcn : c ≠ n := by
              intro he
              subst he
              rcases bfsAux_mem fuel _ p hp2 with ⟨q, hq, hstar⟩
              have htgqc : Relation.TransGen (chStep children) q c :=
                Relation.TransGen.tail' hstar hpc
              rcases List.mem_append.mp hq with hq | hq
              · exact hinv.2.1 q (List.mem_cons_of_mem _ hq) c
                  (List.mem_cons_self _ _) htgqc
              · exact hinv.2.1 c (List.mem_cons_self _ _) c (List.mem_cons_self _ _)
                  (Relation.TransGen.head hq htgqc)
            have hc2 : c ∈ bfsAux children fuel (Qt ++ children n) := by
              rcases List.mem_cons.mp hc with he | hc2
              · exact absurd he hcn
              · exact hc2
            exact precedes_cons n (ih _ (qinv_step H1 H2 hinv) p c hpc hp2 hc2)

theorem bfsAux_sibling_order {children : List Char → List (List Char)}
    (H1 : ∀ p, (children p).Nodup)
    (H2 : ∀ c p q, c ∈ children p → c ∈ children q → p = q) :
    ∀ fuel Q, QInv children Q → ∀ p c d, Precedes (children p) c d →
      c ∈ bfsAux children fuel Q → d ∈ bfsAux children fuel Q →
      Precedes (bfsAux children fuel Q) c d := by
  intro fuel
  induction fuel with
  | zero => intro Q _ p c d _ hcm _; simp [bfsAux] at hcm
  | succ fuel ih =>
      intro Q hinv p c d hpcd hc hd
      cases Q with
      | nil => simp [bfsAux] at hc
      | cons n Qt =>
          rw [show bfsAux children (fuel + 1) (n :: Qt) =
            n :: bfsAux children fuel (Qt ++ children n) from rfl] at hc hd ⊢
          by_cases hcn : c = n
          · subst hcn
            have hdn : d ≠ c := by
              intro he
              rw [he] at hpcd
              exact precedes_irrefl_of_nodup (H1 p) _ hpcd
            exact precedes_head (by
              rcases List.mem_cons.mp hd with he | hd2
              · exact absurd he hdn
              · exact hd2)
          · have hc2 : c ∈ bfsAux children fuel (Qt ++ children n) := by
              rcases List.mem_cons.mp hc with he | hc2
              · exact absurd he hcn
              · exact hc2
            have hdn : d ≠ n := by
              intro he
              have hc_child : c ∈ children p := (precedes_mem hpcd).1
              have hd_child : d ∈ children p := (precedes_mem hpcd).2
              have hn_child : n ∈ children p := he ▸ hd_child
              rcases bfsAux_mem fuel _ c hc2 with ⟨q, hq, hstar⟩
              rcases star_cases hstar with he2 | htg
              · rcases List.mem_append.mp hq with hq | hq
                · exact precedes_first_ne hinv.1
                    (hinv.2.2.2 p c n (he ▸ hpcd)
                      (List.mem_cons_of_mem _ (he2.symm ▸ hq))
                      (List.mem_cons_self _ _))
                · have hcn : c ∈ children n := he2.symm ▸ hq
                  have hp : p = n := H2 c p n hc_child hcn
                  exact hinv.2.1 n (List.mem_cons_self _ _) n
                    (List.mem_cons_self _ _)
                    (Relation.TransGen.single (hp ▸ hn_child))
              · rcases transGen_last_edge htg with ⟨b, hqb, hbc⟩
                have hb : b = p := H2 c b p hbc hc_child
                have hqp : Relation.ReflTransGen (chStep children) q p := hb ▸ hqb
                rcases List.mem_append.mp hq with hq | hq
                · exact hinv.2.2.1 n (List.mem_cons_self _ _) p hn_child q
                    (List.mem_cons_of_mem _ hq) hqp
                · exact hinv.2.2.1 n (List.mem_cons_self _ _) p hn_child n
                    (List.mem_cons_self _ _)
                    (Relation.ReflTransGen.head hq hqp)
            have hd2 : d ∈ bfsAux children fuel (Qt ++ children n) := by
              rcases List.mem_cons.mp hd with he | hd2
              · exact absurd he hdn
              · exact hd2
            exact precedes_cons n (ih _ (qinv_step H1 H2 hinv) p c d hpcd hc2 hd2)

/-! ## C4: the descendant order of `_get_stack_from_node` -/

theorem sortByNum_sorted (l : List (List Char)) :
    (sortByNum l).Pairwise (fun a b => strToNat a ≤ strToNat b) := by
  unfold sortByNum
  haveI h1 : IsTotal (List Char) (fun a b => strToNat a ≤ strToNat b) :=
    ⟨fun a b => Nat.le_total _ _⟩
  haveI h2 : IsTrans (List Char) (fun a b => strToNat a ≤ strToNat b) :=
    ⟨fun a b c hab hbc => Nat.le_trans hab hbc⟩
  exact List.sorted_insertionSort _ _

theorem childrenOf_sorted (raw : List RawChange) (p : List Char) :
    (childrenOf (build_stack_graph raw) p).Pairwise
      (fun a b => strToNat a ≤ strToNat b) :=
  sortByNum_sorted _

theorem precedes_of_sorted_lt {l : List (List Char)}
    (hs : l.Pairwise (fun a b => strToNat a ≤ strToNat b)) {x y : List Char}
    (hx : x ∈ l) (hy : y ∈ l) (hlt : strToNat x < strToNat y) :
    Precedes l x y := by
  have hne : x ≠ y := by
    intro he
    rw [he] at hlt
    omega
  rcases mem_split_order hx hy hne with h | h
  · exact h
  · exact absurd (precedes_pairwise h hs) (by omega)

theorem base_not_cyclic {raw : List RawChange} {base : List Char}
    (hb : ∃ r ∈ rootsOf (build_stack_graph raw),
      Relation.ReflTransGen (chStep (childrenOf (build_stack_graph raw))) r base) :
    ¬ Relation.TransGen (chStep (childrenOf (build_stack_graph raw))) base base := by
  intro hcyc
  rcases hb with ⟨r, hr, hreach⟩
  rcases reflTransGen_parentIter hreach with ⟨j, hj⟩
  rcases transGen_parentIter hcyc with ⟨k, hk, hcyck⟩
  exact no_cycle_of_rooted (mem_roots_iff.mp hr).2 j hj k hk hcyck

/-- C4: for every built stack graph and every base CL reachable from a
root (the only nodes `_find_node_in_graph` can return), the loop of
`_get_stack_from_node` — run with any fuel — produces a list that starts
with the base, contains each CL at most once, places every parent before
each of its children, and lists siblings in ascending CL-number order.
The loop is a pure function of the graph, so the order is deterministic. -/
theorem get_stack_from_node_bfs_order (raw : List RawChange) (base : List Char)
    (fuel : Nat)
    (hb : ∃ r ∈ rootsOf (build_stack_graph raw),
      Relation.ReflTransGen (chStep (childrenOf (build_stack_graph raw))) r base) :
    (0 < fuel → ∃ t, get_stack_from_node (build_stack_graph raw) base fuel =
      base :: t) ∧
    (get_stack_from_node (build_stack_graph raw) base fuel).Nodup ∧
    (∀ p c, c ∈ childrenOf (build_stack_graph raw) p →
      p ∈ get_stack_from_node (build_stack_graph raw) base fuel →
      c ∈ get_stack_from_node (build_stack_graph raw) base fuel →
      Precedes (get_stack_from_node (build_stack_graph raw) base fuel) p c) ∧
    (∀ p c d, c ∈ childrenOf (build_stack_graph raw) p →
      d ∈ childrenOf (build_stack_graph raw) p → strToNat c < strToNat d →
      c ∈ get_stack_from_node (build_stack_graph raw) base fuel →
      d ∈ get_stack_from_node (build_stack_graph raw) base fuel →
      Precedes (get_stack_from_node (build_stack_graph raw) base fuel) c d) := by
  have H1 : ∀ p, (childrenOf (build_stack_graph raw) p).Nodup :=
    childrenOf_nodup raw
  have H2 : ∀ c p q, c ∈ childrenOf (build_stack_graph raw) p →
      c ∈ childrenOf (build_stack_graph raw) q → p = q :=
    fun _ _ _ hp hq => parent_unique hp hq
  have hinv : QInv (childrenOf (build_stack_graph raw)) [base] :=
    qinv_init H1 (base_not_cyclic hb)
  refine ⟨?_, bfsAux_nodup H1 H2 fuel [base] hinv,
    fun p c hpc hp hc => bfsAux_edge_order H1 H2 fuel [base] hinv p c hpc hp hc,
    ?_⟩
  · intro hf
    obtain ⟨f, rfl⟩ : ∃ f, fuel = f + 1 := ⟨fuel - 1, by omega⟩
    exact ⟨_, rfl⟩
  · intro p c d hcp hdp hlt hc hd
    exact bfsAux_sibling_order H1 H2 fuel [base] hinv p c d
      (precedes_of_sorted_lt (childrenOf_sorted raw p) hcp hdp hlt) hc hd

theorem get_stack_from_node_bfs_order_witness :
    (∃ t, get_stack_from_node (build_stack_graph exampleLinRaw) (sChars "100") 4 =
      sChars "100" :: t) ∧
    (get_stack_from_node (build_stack_graph exampleLinRaw) (sChars "100") 4).Nodup ∧
    Precedes (get_stack_from_node (build_stack_graph exampleLinRaw)
      (sChars "100") 4) (sChars "100") (sChars "101") ∧
    Precedes (get_stack_from_node (build_stack_graph exampleLinRaw)
      (sChars "100") 4) (sChars "101") (sChars "102") := by
  have h := get_stack_from_node_bfs_order exampleLinRaw (sChars "100") 4
    ⟨sChars "100", by decide, Relation.ReflTransGen.refl⟩
  refine ⟨h.1 (by decide), h.2.1, ?_, ?_⟩
  · exact h.2.2.1 (sChars "100") (sChars "101") (by decide) (by decide) (by decide)
  · exact h.2.2.2 (sChars "100") (sChars "101") (sChars "102") (by decide)
      (by decide) (by decide) (by decide) (by decide)

end P4Stack
